import Mathlib

/-!
Verification of the seasonal-trend anomaly-detection core of the
LearnAI-ADPM notebooks.

The source of truth for the outlier detector is the global-threshold cell
of the anomaly-detection introduction notebook:

    m = np.mean(y)
    std = np.std(y)
    idx = np.where(y > m + tolerance * std)[0].tolist()
    anoms = np.full(y.shape[0], np.nan)
    anoms[idx] = y[idx]

Series values are floating-point with NaN as a possible value, and the
NaN-sensitive behaviour of `np.mean`, `np.std` and the ordering comparison
matters for the claims, so values are embedded as `RVal`: either a rational
number or NaN, with NaN-propagating arithmetic and IEEE-style comparisons
(every comparison against NaN is false).  The exact real square root is not
rational; `Rat.sqrt` stands in for it.  Every property proved here depends
only on the square root being nonnegative and NaN-propagating, never on its
numeric value.

The STL decomposition itself, the rolling-mode detector and the
detector/driver function wrappers are exercised by the notebooks but live
in files (`rstl`, `solutions/basic_anom_detect.py`,
`solutions/basic_anom_detect_stl.py`, `solutions/AD_score.py`) that are not
among the source files; those parts are modelled from the spec, as marked
on each definition.
-/

set_option autoImplicit false

namespace ADPM

/-- A floating-point value of the notebooks: a rational number, or NaN. -/
inductive RVal where
  | nan : RVal
  | val : ℚ → RVal
deriving DecidableEq, Repr

/-- Addition; NaN propagates, as in IEEE arithmetic. -/
def RVal.add : RVal → RVal → RVal
  | .val a, .val b => .val (a + b)
  | _, _ => .nan

/-- Subtraction; NaN propagates. -/
def RVal.sub : RVal → RVal → RVal
  | .val a, .val b => .val (a - b)
  | _, _ => .nan

/-- Multiplication; NaN propagates. -/
def RVal.mul : RVal → RVal → RVal
  | .val a, .val b => .val (a * b)
  | _, _ => .nan

/-- Division; NaN propagates, and division by zero yields NaN. -/
def RVal.div : RVal → RVal → RVal
  | .val a, .val b => if b = 0 then .nan else .val (a / b)
  | _, _ => .nan

/-- Strict order, as the comparison `y > threshold` of the notebook:
any comparison involving NaN is false. -/
def RVal.lt : RVal → RVal → Bool
  | .val a, .val b => decide (a < b)
  | _, _ => false

/-- Sum of a list of values, NaN-propagating as `np.sum`. -/
def rsum (xs : List RVal) : RVal := xs.foldr RVal.add (.val 0)

/-- Arithmetic mean, as `np.mean`: NaN on an empty list (division by the
zero count) and whenever the list holds a NaN. -/
def rmean (xs : List RVal) : RVal :=
  RVal.div (rsum xs) (.val (xs.length : ℚ))

/-- Population variance, the square of `np.std` with the default `ddof=0`:
the mean of the squared deviations from the mean. -/
def rvariance (xs : List RVal) : RVal :=
  rmean (xs.map fun x => RVal.mul (RVal.sub x (rmean xs)) (RVal.sub x (rmean xs)))

/-- Square root on `RVal`; NaN on NaN and on negative arguments.
`Rat.sqrt` stands in for the (irrational) real square root; the theorems
below use only its nonnegativity. -/
def rsqrt : RVal → RVal
  | .nan => .nan
  | .val q => if q < 0 then .nan else .val (Rat.sqrt q)

/-- Standard deviation, as `np.std` (population, `ddof=0`). -/
def rstd (xs : List RVal) : RVal := rsqrt (rvariance xs)

/-- Error taxonomy of the spec. -/
inductive ADError where
  | invalidParameter : ADError
  | insufficientData : ADError
deriving DecidableEq, Repr

/-- The global threshold of the notebook cell: `m + tolerance * std`. -/
def globalThreshold (y : List RVal) (tolerance : ℚ) : RVal :=
  RVal.add (rmean y) (RVal.mul (.val tolerance) (rstd y))

/-- Modelled from the spec: the trailing `w`-sample window ending at index
`i`, used by the rolling statistics of the detector's rolling mode (the
rolling-mode implementation, `solutions/AD_score.py`, is not among the
source files). -/
def windowSlice (y : List RVal) (w i : ℕ) : List RVal :=
  (y.drop (i + 1 - w)).take w

/-- Modelled from the spec: rolling mean over the trailing `w` samples;
NaN for the first `w - 1` indices, where insufficient history exists. -/
def rollingMean (y : List RVal) (w i : ℕ) : RVal :=
  if i + 1 < w then .nan else rmean (windowSlice y w i)

/-- Modelled from the spec: rolling standard deviation over the trailing
`w` samples; NaN for the first `w - 1` indices. -/
def rollingStd (y : List RVal) (w i : ℕ) : RVal :=
  if i + 1 < w then .nan else rstd (windowSlice y w i)

/-- Per-index threshold sequence: in global mode the single threshold
`m + tolerance * std` repeated (as the notebook plots
`[m + tolerance * std] * len(x_tics)`), in rolling mode
`rolling_mean[i] + tolerance * rolling_std[i]`. -/
def thresholds (y : List RVal) (tolerance : ℚ) (window : Option ℕ) : List RVal :=
  match window with
  | none => List.replicate y.length (globalThreshold y tolerance)
  | some w => (List.range y.length).map fun i =>
      RVal.add (rollingMean y w i) (RVal.mul (.val tolerance) (rollingStd y w i))

/-- The flagged indices, as `np.where(y > threshold)[0].tolist()`. -/
def flaggedIdx (y : List RVal) (thr : List RVal) : List ℕ :=
  (List.range y.length).filter fun i => RVal.lt (thr.getD i .nan) (y.getD i .nan)

/-- The anomaly array of the notebook cell:
`anoms = np.full(n, np.nan); anoms[idx] = y[idx]` — the original value at
every flagged index, NaN everywhere else. -/
def anomsArray (y : List RVal) (thr : List RVal) : List RVal :=
  (List.range y.length).map fun i =>
    if RVal.lt (thr.getD i .nan) (y.getD i .nan) then y.getD i .nan else .nan

/-- The anomaly report of the spec: flagged indices, the anomaly array of
the notebook cell, and the per-index thresholds used. -/
structure AnomalyReport where
  flagged : List ℕ
  anoms : List RVal
  thresholds : List RVal
deriving DecidableEq, Repr

/-- Modelled from the spec: the outlier detector `detect`.  The numeric
core (threshold, flagged indices, anomaly array) is the notebook cell; the
validation of `tolerance` and `window` and the rolling mode follow the
spec's detector contract, whose implementation is not among the source
files. -/
def detect (y : List RVal) (tolerance : ℚ) (window : Option ℕ) :
    Except ADError AnomalyReport :=
  if tolerance ≤ 0 then .error .invalidParameter
  else if window = some 0 then .error .invalidParameter
  else
    let thr := thresholds y tolerance window
    .ok ⟨flaggedIdx y thr, anomsArray y thr, thr⟩

/-- Whether a detector or decomposer call succeeded. -/
def exOk {α : Type} : Except ADError α → Bool
  | .ok _ => true
  | .error _ => false

/-- Flagged indices of a detector call; empty on error. -/
def flaggedOf (e : Except ADError AnomalyReport) : List ℕ :=
  match e with
  | .ok r => r.flagged
  | .error _ => []

/-- Anomaly array of a detector call; empty on error. -/
def anomsOf (e : Except ADError AnomalyReport) : List RVal :=
  match e with
  | .ok r => r.anoms
  | .error _ => []

/-- Threshold sequence of a detector call; empty on error. -/
def thresholdsOf (e : Except ADError AnomalyReport) : List RVal :=
  match e with
  | .ok r => r.thresholds
  | .error _ => []

/-- Pointwise subtraction of two equal-length series. -/
def seriesSub (a b : List RVal) : List RVal := a.zipWith RVal.sub b

/-- Modelled from the spec: the smoothing window of radius `h` around
index `i`, clamped to the series. -/
def windowAround (y : List RVal) (h i : ℕ) : List RVal :=
  ((List.range y.length).filter fun j =>
    decide (i - h ≤ j) && decide (j ≤ i + h)).map fun j => y.getD j .nan

/-- Modelled from the spec: low-pass trend smoothing by a local moving
average whose window spans at least `period` samples. -/
def trendSmooth (y : List RVal) (period : ℕ) : List RVal :=
  (List.range y.length).map fun i => rmean (windowAround y (period / 2) i)

/-- Indices of `List.range n` sharing the phase `q` modulo `period`. -/
def phaseIdx (n period q : ℕ) : List ℕ :=
  (List.range n).filter fun j => decide (j % period = q)

/-- Modelled from the spec: the seasonal component, estimated for every
index from the average of all detrended samples at the same phase within
the period. -/
def seasonalEstimate (detr : List RVal) (period : ℕ) : List RVal :=
  (List.range detr.length).map fun i =>
    rmean ((phaseIdx detr.length period (i % period)).map fun j => detr.getD j .nan)

/-- Modelled from the spec: one trend/seasonal refinement pass — re-smooth
the trend on the deseasonalised series, then re-estimate the seasonal
component on the detrended series. -/
def stlStep (y : List RVal) (period : ℕ) (seasonal : List RVal) :
    List RVal × List RVal :=
  let t := trendSmooth (seriesSub y seasonal) period
  (t, seasonalEstimate (seriesSub y t) period)

/-- Modelled from the spec: iterate the trend/seasonal refinement a fixed
number of times, starting from a zero seasonal component. -/
def stlIter (y : List RVal) (period : ℕ) : ℕ → List RVal × List RVal
  | 0 => stlStep y period (List.replicate y.length (.val 0))
  | k + 1 => stlStep y period (stlIter y period k).2

/-- Fixed iteration count of the decomposition. -/
def stlIterations : ℕ := 2

/-- The decomposition result: three parallel component series. -/
structure DecompositionResult where
  trend : List RVal
  seasonal : List RVal
  remainder : List RVal
deriving DecidableEq, Repr

/-- Modelled from the spec: `decompose` — validate the period and the
series length (at least two full cycles), then split the series into
trend, seasonal and remainder, the remainder being the original minus
trend and seasonal. -/
def decompose (y : List RVal) (period : ℕ) : Except ADError DecompositionResult :=
  if period = 0 then .error .invalidParameter
  else if y.length < 2 * period then .error .insufficientData
  else
    let ts := stlIter y period stlIterations
    .ok ⟨ts.1, ts.2, seriesSub (seriesSub y ts.1) ts.2⟩

/-- Remainder series of a decomposer call; empty on error. -/
def remainderOf (e : Except ADError DecompositionResult) : List RVal :=
  match e with
  | .ok d => d.remainder
  | .error _ => []

/-- Modelled from the spec: the pipeline driver.  With a period it
decomposes first and detects on the remainder, returning the report with
the remainder; without a period it detects directly on the original
series, returning the original series in place of the remainder.  Errors
of either stage propagate unchanged. -/
def detect_anomalies_stl (y : List RVal) (tolerance : ℚ) (window : Option ℕ)
    (period : Option ℕ) : Except ADError (AnomalyReport × List RVal) :=
  match period with
  | none =>
    match detect y tolerance window with
    | .error e => .error e
    | .ok r => .ok (r, y)
  | some p =>
    match decompose y p with
    | .error e => .error e
    | .ok d =>
      match detect d.remainder tolerance window with
      | .error e => .error e
      | .ok r => .ok (r, d.remainder)

/-- A series free of NaN: every value is a rational number. -/
def Numeric (xs : List RVal) : Prop := ∀ x ∈ xs, x ≠ RVal.nan

/-! ### Basic lemmas about NaN propagation and numeric values -/

@[simp] theorem RVal.add_nan_left (x : RVal) : RVal.add .nan x = .nan := by
  cases x <;> rfl

@[simp] theorem RVal.add_nan_right (x : RVal) : RVal.add x .nan = .nan := by
  cases x <;> rfl

@[simp] theorem RVal.sub_nan_left (x : RVal) : RVal.sub .nan x = .nan := by
  cases x <;> rfl

@[simp] theorem RVal.sub_nan_right (x : RVal) : RVal.sub x .nan = .nan := by
  cases x <;> rfl

@[simp] theorem RVal.mul_nan_left (x : RVal) : RVal.mul .nan x = .nan := by
  cases x <;> rfl

@[simp] theorem RVal.mul_nan_right (x : RVal) : RVal.mul x .nan = .nan := by
  cases x <;> rfl

@[simp] theorem RVal.div_nan_left (x : RVal) : RVal.div .nan x = .nan := by
  cases x <;> rfl

@[simp] theorem RVal.div_nan_right (x : RVal) : RVal.div x .nan = .nan := by
  cases x <;> rfl

@[simp] theorem RVal.lt_nan_left (x : RVal) : RVal.lt .nan x = false := by
  cases x <;> rfl

@[simp] theorem RVal.lt_nan_right (x : RVal) : RVal.lt x .nan = false := by
  cases x <;> rfl

@[simp] theorem RVal.add_val (a b : ℚ) :
    RVal.add (.val a) (.val b) = .val (a + b) := rfl

@[simp] theorem RVal.sub_val (a b : ℚ) :
    RVal.sub (.val a) (.val b) = .val (a - b) := rfl

@[simp] theorem RVal.mul_val (a b : ℚ) :
    RVal.mul (.val a) (.val b) = .val (a * b) := rfl

@[simp] theorem RVal.lt_val (a b : ℚ) :
    RVal.lt (.val a) (.val b) = decide (a < b) := rfl

theorem ratSqrt_one : Rat.sqrt 1 = 1 := by
  have h := Rat.sqrt_eq 1
  rw [mul_one] at h
  rw [h, abs_one]

theorem ratSqrt_zero : Rat.sqrt 0 = 0 := by
  have h := Rat.sqrt_eq 0
  rw [mul_zero] at h
  rw [h, abs_zero]

@[simp] theorem RVal.val_ne_nan (a : ℚ) : RVal.val a ≠ RVal.nan :=
  fun h => RVal.noConfusion h

/-- A series in the image of `RVal.val` is NaN-free. -/
theorem numeric_map_val (qs : List ℚ) : Numeric (qs.map RVal.val) := by
  intro x hx
  rcases List.mem_map.mp hx with ⟨a, -, rfl⟩
  exact RVal.val_ne_nan a

theorem numeric_getD {xs : List RVal} (h : Numeric xs) {i : ℕ}
    (hi : i < xs.length) : ∃ q, xs.getD i .nan = .val q := by
  rw [List.getD_eq_getElem _ _ hi]
  have hmem := List.getElem_mem hi
  cases hx : xs.get ⟨i, hi⟩ with
  | nan =>
    rw [List.get_eq_getElem] at hx
    exact absurd hx (h _ hmem)
  | val q =>
    rw [List.get_eq_getElem] at hx
    exact ⟨q, hx⟩

theorem numeric_rep {xs : List RVal} (h : Numeric xs) :
    ∃ qs : List ℚ, xs = qs.map RVal.val := by
  induction xs with
  | nil => exact ⟨[], rfl⟩
  | cons x xs ih =>
    obtain ⟨qs, hqs⟩ := ih fun a ha => h a (List.mem_cons_of_mem _ ha)
    cases x with
    | nan => exact absurd rfl (h _ (List.mem_cons_self _ _))
    | val q => exact ⟨q :: qs, by rw [List.map_cons, hqs]⟩

theorem rsum_eq_nan_of_mem {xs : List RVal} (h : RVal.nan ∈ xs) :
    rsum xs = .nan := by
  induction xs with
  | nil => cases h
  | cons x xs ih =>
    rcases List.mem_cons.mp h with h | h
    · show RVal.add x (rsum xs) = .nan
      rw [← h]
      simp
    · show RVal.add x (rsum xs) = .nan
      rw [ih h]
      simp

theorem rmean_eq_nan_of_mem {xs : List RVal} (h : RVal.nan ∈ xs) :
    rmean xs = .nan := by
  rw [rmean, rsum_eq_nan_of_mem h]
  simp

theorem rsum_map_val (qs : List ℚ) :
    rsum (qs.map RVal.val) = .val qs.sum := by
  induction qs with
  | nil => rfl
  | cons q qs ih =>
    simp only [List.map_cons, rsum, List.foldr, List.sum_cons] at *
    rw [ih]
    rfl

theorem rmean_map_val (qs : List ℚ) (h : qs ≠ []) :
    rmean (qs.map RVal.val) = .val (qs.sum / (qs.length : ℚ)) := by
  have hlen : (qs.length : ℚ) ≠ 0 :=
    Nat.cast_ne_zero.mpr (Nat.pos_iff_ne_zero.mp (List.length_pos.mpr h))
  rw [rmean, rsum_map_val]
  simp [RVal.div, hlen]

theorem rvariance_map_val (qs : List ℚ) (h : qs ≠ []) :
    rvariance (qs.map RVal.val) =
      .val ((qs.map fun a =>
        (a - qs.sum / (qs.length : ℚ)) * (a - qs.sum / (qs.length : ℚ))).sum /
        (qs.length : ℚ)) := by
  have hm := rmean_map_val qs h
  rw [rvariance, hm]
  have hmap : (qs.map RVal.val).map
      (fun x => RVal.mul (RVal.sub x (.val (qs.sum / (qs.length : ℚ))))
        (RVal.sub x (.val (qs.sum / (qs.length : ℚ))))) =
      (qs.map fun a =>
        (a - qs.sum / (qs.length : ℚ)) * (a - qs.sum / (qs.length : ℚ))).map RVal.val := by
    simp [List.map_map, Function.comp]
  rw [hmap, rmean_map_val]
  · simp
  · simp [h]

theorem rsqrt_val_nonneg {x : RVal} {s : ℚ} (h : rsqrt x = .val s) : 0 ≤ s := by
  cases x with
  | nan => simp [rsqrt] at h
  | val q =>
    by_cases hq : q < 0
    · simp [rsqrt, hq] at h
    · simp only [rsqrt, if_neg hq, RVal.val.injEq] at h
      exact h ▸ Rat.sqrt_nonneg q

theorem rstd_val_nonneg {xs : List RVal} {s : ℚ} (h : rstd xs = .val s) :
    0 ≤ s := rsqrt_val_nonneg h

theorem rstd_map_val (qs : List ℚ) (h : qs ≠ []) :
    ∃ s : ℚ, rstd (qs.map RVal.val) = .val s ∧ 0 ≤ s := by
  rw [rstd, rvariance_map_val qs h]
  have hnum : 0 ≤ (qs.map fun a =>
      (a - qs.sum / (qs.length : ℚ)) * (a - qs.sum / (qs.length : ℚ))).sum := by
    apply List.sum_nonneg
    intro x hx
    rcases List.mem_map.mp hx with ⟨a, _, rfl⟩
    exact mul_self_nonneg _
  have hden : (0 : ℚ) ≤ (qs.length : ℚ) := by positivity
  have hv : 0 ≤ (qs.map fun a =>
      (a - qs.sum / (qs.length : ℚ)) * (a - qs.sum / (qs.length : ℚ))).sum /
      (qs.length : ℚ) := div_nonneg hnum hden
  refine ⟨Rat.sqrt ((qs.map fun a =>
      (a - qs.sum / (qs.length : ℚ)) * (a - qs.sum / (qs.length : ℚ))).sum /
      (qs.length : ℚ)), ?_, Rat.sqrt_nonneg _⟩
  simp [rsqrt, not_lt.mpr hv]

theorem rmean_numeric {xs : List RVal} (h : Numeric xs) (hne : xs ≠ []) :
    ∃ q, rmean xs = .val q := by
  obtain ⟨qs, rfl⟩ := numeric_rep h
  exact ⟨_, rmean_map_val qs fun hc => hne (by rw [hc]; rfl)⟩

/-! ### Helper lemmas about the detector -/

theorem detect_ok (y : List RVal) (tolerance : ℚ) (window : Option ℕ)
    (ht : 0 < tolerance) (hw : window ≠ some 0) :
    detect y tolerance window =
      .ok ⟨flaggedIdx y (thresholds y tolerance window),
        anomsArray y (thresholds y tolerance window),
        thresholds y tolerance window⟩ := by
  rw [detect, if_neg (not_le.mpr ht), if_neg hw]

theorem mem_flaggedIdx {y thr : List RVal} {i : ℕ} :
    i ∈ flaggedIdx y thr ↔
      i < y.length ∧ RVal.lt (thr.getD i .nan) (y.getD i .nan) = true := by
  simp [flaggedIdx, List.mem_filter, List.mem_range, and_comm]

theorem anomsArray_length (y thr : List RVal) :
    (anomsArray y thr).length = y.length := by
  simp [anomsArray]

theorem anomsArray_getD {y thr : List RVal} {i : ℕ} (h : i < y.length) :
    (anomsArray y thr).getD i .nan =
      if RVal.lt (thr.getD i .nan) (y.getD i .nan) then y.getD i .nan else .nan := by
  rw [List.getD_eq_getElem _ _ (by simpa [anomsArray] using h)]
  simp [anomsArray]

theorem thresholds_none_getD {y : List RVal} {tolerance : ℚ} {i : ℕ}
    (h : i < y.length) :
    (thresholds y tolerance none).getD i .nan = globalThreshold y tolerance := by
  rw [thresholds, List.getD_eq_getElem _ _ (by simpa using h),
    List.getElem_replicate]

theorem thresholds_some_getD {y : List RVal} {tolerance : ℚ} {w i : ℕ}
    (h : i < y.length) :
    (thresholds y tolerance (some w)).getD i .nan =
      RVal.add (rollingMean y w i) (RVal.mul (.val tolerance) (rollingStd y w i)) := by
  rw [thresholds, List.getD_eq_getElem _ _ (by simpa using h)]
  simp

theorem globalThreshold_of_nan {y : List RVal} (h : RVal.nan ∈ y)
    (tolerance : ℚ) : globalThreshold y tolerance = .nan := by
  rw [globalThreshold, rmean_eq_nan_of_mem h]
  simp

theorem exists_add_mul_val (a t s : ℚ) :
    ∃ q, RVal.add (.val a) (RVal.mul (.val t) (.val s)) = .val q :=
  ⟨a + t * s, rfl⟩

theorem rollingStd_val_nonneg {y : List RVal} {w i : ℕ} {q : ℚ}
    (h : rollingStd y w i = .val q) : 0 ≤ q := by
  rw [rollingStd] at h
  split at h
  · exact absurd h (by simp)
  · exact rstd_val_nonneg h

/-- The monotonicity core: at a fixed centre and a nonnegative dispersion,
lowering the tolerance can only keep a value above the threshold. -/
theorem lt_threshold_mono {m s v : RVal} {t1 t2 : ℚ}
    (hs : ∀ q, s = .val q → 0 ≤ q) (h12 : t1 ≤ t2)
    (h : RVal.lt (RVal.add m (RVal.mul (.val t2) s)) v = true) :
    RVal.lt (RVal.add m (RVal.mul (.val t1) s)) v = true := by
  cases m with
  | nan => simp at h
  | val a =>
    cases s with
    | nan => simp at h
    | val q =>
      cases v with
      | nan => simp at h
      | val b =>
        have hq : 0 ≤ q := hs q rfl
        simp only [RVal.mul_val, RVal.add_val, RVal.lt_val, decide_eq_true_eq] at h ⊢
        nlinarith

/-! ### Claims about the detector -/

/-- C4. For every series, calling the detector with `tolerance ≤ 0` fails
with `InvalidParameterError` and produces no anomaly report. -/
theorem detect_invalid_tolerance (y : List RVal) (tolerance : ℚ)
    (window : Option ℕ) (ht : tolerance ≤ 0) :
    detect y tolerance window = .error .invalidParameter := by
  rw [detect, if_pos ht]

/-- C4 witness: tolerance `0` on a concrete series is rejected. -/
theorem detect_invalid_tolerance_witness :
    detect [RVal.val 1, RVal.val 5] 0 none = .error .invalidParameter :=
  detect_invalid_tolerance [RVal.val 1, RVal.val 5] 0 none (by norm_num)

/-- C2. In global mode (no window), the detector succeeds, its threshold
sequence is the single value `mean + tolerance * std` repeated, an index is
flagged exactly when its value exceeds that threshold, and detection is
one-sided: an index whose value is below the mean is never flagged. -/
theorem detect_global_mode (y : List RVal) (tolerance : ℚ) (ht : 0 < tolerance) :
    exOk (detect y tolerance none) = true ∧
    thresholdsOf (detect y tolerance none) =
      List.replicate y.length
        (RVal.add (rmean y) (RVal.mul (.val tolerance) (rstd y))) ∧
    (∀ i, i ∈ flaggedOf (detect y tolerance none) ↔
      i < y.length ∧
        RVal.lt (globalThreshold y tolerance) (y.getD i .nan) = true) ∧
    (∀ i, RVal.lt (y.getD i .nan) (rmean y) = true →
      i ∉ flaggedOf (detect y tolerance none)) := by
  rw [detect_ok y tolerance none ht (by simp)]
  refine ⟨rfl, rfl, fun i => ?_, fun i hbelow hmem => ?_⟩
  · rw [flaggedOf, mem_flaggedIdx]
    constructor
    · rintro ⟨hlen, hlt⟩
      rw [thresholds_none_getD hlen] at hlt
      exact ⟨hlen, hlt⟩
    · rintro ⟨hlen, hlt⟩
      rw [thresholds_none_getD hlen]
      exact ⟨hlen, hlt⟩
  · rw [flaggedOf, mem_flaggedIdx] at hmem
    obtain ⟨hlen, hlt⟩ := hmem
    rw [thresholds_none_getD hlen, globalThreshold] at hlt
    cases hy : y.getD i .nan with
    | nan => rw [hy] at hlt; simp at hlt
    | val a =>
      cases hm : rmean y with
      | nan => rw [hm] at hbelow; simp [hy] at hbelow
      | val m =>
        cases hsd : rstd y with
        | nan => rw [hm, hsd, hy] at hlt; simp at hlt
        | val s =>
          have hs : 0 ≤ s := rstd_val_nonneg hsd
          rw [hm, hsd, hy] at hlt
          rw [hy, hm] at hbelow
          simp only [RVal.mul_val, RVal.add_val, RVal.lt_val,
            decide_eq_true_eq] at hlt hbelow
          nlinarith

/-- C2 witness: on the series `[3, 1/2, 1/2, 1/2, 1/2]` (mean 1, standard
deviation 1) at tolerance 1, the spike at index 0 is flagged and the
below-mean index 1 is not. -/
theorem detect_global_mode_witness :
    0 ∈ flaggedOf (detect [RVal.val 3, .val (1/2), .val (1/2), .val (1/2), .val (1/2)] 1 none) ∧
    1 ∉ flaggedOf (detect [RVal.val 3, .val (1/2), .val (1/2), .val (1/2), .val (1/2)] 1 none) := by
  have h := detect_global_mode
    [RVal.val 3, .val (1/2), .val (1/2), .val (1/2), .val (1/2)] 1 (by norm_num)
  constructor
  · refine (h.2.2.1 0).mpr ⟨by norm_num, ?_⟩
    norm_num [globalThreshold, rstd, rvariance, rmean, rsum, RVal.div,
      RVal.add, RVal.sub, RVal.mul, RVal.lt, rsqrt, ratSqrt_one]
  · refine h.2.2.2 1 ?_
    norm_num [rmean, rsum, RVal.div, RVal.add, RVal.lt]

/-- C7. For every series and window mode, and positive tolerances
`t1 < t2`, every index flagged at tolerance `t2` is also flagged at
tolerance `t1`: raising the tolerance weakly shrinks the flagged set. -/
theorem detect_tolerance_monotone (y : List RVal) (window : Option ℕ)
    (t1 t2 : ℚ) (ht1 : 0 < t1) (h12 : t1 < t2) (i : ℕ)
    (hi : i ∈ flaggedOf (detect y t2 window)) :
    i ∈ flaggedOf (detect y t1 window) := by
  by_cases hw : window = some 0
  · rw [detect, if_neg (not_le.mpr (ht1.trans h12)), if_pos hw] at hi
    cases hi
  · rw [detect_ok y t2 window (ht1.trans h12) hw] at hi
    rw [detect_ok y t1 window ht1 hw]
    rw [flaggedOf] at hi ⊢
    obtain ⟨hlen, hlt⟩ := mem_flaggedIdx.mp hi
    refine mem_flaggedIdx.mpr ⟨hlen, ?_⟩
    cases window with
    | none =>
      rw [thresholds_none_getD hlen] at hlt
      rw [thresholds_none_getD hlen]
      rw [globalThreshold] at hlt ⊢
      exact lt_threshold_mono (fun q hq => rstd_val_nonneg hq) h12.le hlt
    | some w =>
      rw [thresholds_some_getD hlen] at hlt
      rw [thresholds_some_getD hlen]
      exact lt_threshold_mono (fun q hq => rollingStd_val_nonneg hq) h12.le hlt

/-- C7 witness: on the series `[2, -1/2, -1/2, -1/2, -1/2]` (mean 0,
standard deviation 1), index 0 is flagged at tolerance 1, hence also at
tolerance 1/2. -/
theorem detect_tolerance_monotone_witness :
    0 ∈ flaggedOf
      (detect [RVal.val 2, .val (-1/2), .val (-1/2), .val (-1/2), .val (-1/2)]
        (1/2) none) := by
  refine detect_tolerance_monotone
    [RVal.val 2, .val (-1/2), .val (-1/2), .val (-1/2), .val (-1/2)]
    none (1/2) 1 (by norm_num) (by norm_num) 0 ?_
  rw [detect_ok _ 1 none (by norm_num) (by simp), flaggedOf]
  refine mem_flaggedIdx.mpr ⟨by norm_num, ?_⟩
  rw [thresholds_none_getD (by norm_num)]
  norm_num [globalThreshold, rstd, rvariance, rmean, rsum, RVal.div,
    RVal.add, RVal.sub, RVal.mul, RVal.lt, rsqrt, ratSqrt_one]

/-- C9. In global mode, a series containing a NaN yields an empty flagged
set: the global mean, hence the threshold, is NaN, and no comparison
against NaN succeeds — even at indices holding finite extreme values. -/
theorem detect_global_nan (y : List RVal) (tolerance : ℚ)
    (hnan : RVal.nan ∈ y) :
    flaggedIdx y (thresholds y tolerance none) = [] ∧
    flaggedOf (detect y tolerance none) = [] := by
  have hflag : flaggedIdx y (thresholds y tolerance none) = [] := by
    rw [flaggedIdx, List.filter_eq_nil_iff]
    intro i hi
    rw [List.mem_range] at hi
    rw [thresholds_none_getD hi, globalThreshold_of_nan hnan]
    simp
  refine ⟨hflag, ?_⟩
  by_cases ht : tolerance ≤ 0
  · rw [detect, if_pos ht]
    rfl
  · rw [detect_ok y tolerance none (not_le.mp ht) (by simp), flaggedOf]
    exact hflag

/-- C9 witness: one NaN hides even the finite extreme value 100. -/
theorem detect_global_nan_witness :
    flaggedIdx [RVal.nan, RVal.val 100]
      (thresholds [RVal.nan, RVal.val 100] 4 none) = [] ∧
    flaggedOf (detect [RVal.nan, RVal.val 100] 4 none) = [] :=
  detect_global_nan [RVal.nan, RVal.val 100] 4 (by simp)

/-- C10. For every series and valid configuration, the detector's anomaly
array has the length of the input, holds the original input value at every
flagged index, and NaN at every non-flagged index.  (The input series is a
value here; the call cannot mutate it.) -/
theorem detect_report_shape (y : List RVal) (tolerance : ℚ)
    (window : Option ℕ) (ht : 0 < tolerance) (hw : window ≠ some 0) :
    exOk (detect y tolerance window) = true ∧
    (anomsOf (detect y tolerance window)).length = y.length ∧
    ∀ i, i < y.length →
      ((i ∈ flaggedOf (detect y tolerance window) →
        (anomsOf (detect y tolerance window)).getD i .nan = y.getD i .nan) ∧
       (i ∉ flaggedOf (detect y tolerance window) →
        (anomsOf (detect y tolerance window)).getD i .nan = .nan)) := by
  rw [detect_ok y tolerance window ht hw]
  refine ⟨rfl, anomsArray_length _ _, fun i hi => ⟨fun hmem => ?_, fun hmem => ?_⟩⟩
  · rw [flaggedOf] at hmem
    obtain ⟨-, hlt⟩ := mem_flaggedIdx.mp hmem
    rw [anomsOf, anomsArray_getD hi, if_pos hlt]
  · rw [flaggedOf] at hmem
    have hlt : ¬ RVal.lt ((thresholds y tolerance window).getD i .nan)
        (y.getD i .nan) = true := fun hc => hmem (mem_flaggedIdx.mpr ⟨hi, hc⟩)
    rw [anomsOf, anomsArray_getD hi, if_neg hlt]

/-- C10 witness: on the series `[5, 5/2, 5/2, 5/2, 5/2]` (mean 3, standard
deviation 1) at tolerance 1, the anomaly array holds the original value 5
at the flagged index 0 and NaN at the non-flagged index 1. -/
theorem detect_report_shape_witness :
    (anomsOf (detect [RVal.val 5, .val (5/2), .val (5/2), .val (5/2), .val (5/2)]
      1 none)).getD 0 .nan = RVal.val 5 ∧
    (anomsOf (detect [RVal.val 5, .val (5/2), .val (5/2), .val (5/2), .val (5/2)]
      1 none)).getD 1 .nan = RVal.nan := by
  have h := detect_report_shape
    [RVal.val 5, .val (5/2), .val (5/2), .val (5/2), .val (5/2)] 1 none
    (by norm_num) (by simp)
  have hmem : 0 ∈ flaggedOf
      (detect [RVal.val 5, .val (5/2), .val (5/2), .val (5/2), .val (5/2)] 1 none) := by
    rw [detect_ok _ 1 none (by norm_num) (by simp), flaggedOf]
    refine mem_flaggedIdx.mpr ⟨by norm_num, ?_⟩
    rw [thresholds_none_getD (by norm_num)]
    norm_num [globalThreshold, rstd, rvariance, rmean, rsum, RVal.div,
      RVal.add, RVal.sub, RVal.mul, RVal.lt, rsqrt, ratSqrt_one]
  have hnot : 1 ∉ flaggedOf
      (detect [RVal.val 5, .val (5/2), .val (5/2), .val (5/2), .val (5/2)] 1 none) := by
    rw [detect_ok _ 1 none (by norm_num) (by simp), flaggedOf]
    intro hc
    obtain ⟨-, hlt⟩ := mem_flaggedIdx.mp hc
    rw [thresholds_none_getD (by norm_num)] at hlt
    norm_num [globalThreshold, rstd, rvariance, rmean, rsum, RVal.div,
      RVal.add, RVal.sub, RVal.mul, RVal.lt, rsqrt, ratSqrt_one] at hlt
  refine ⟨((h.2.2 0 (by norm_num)).1 hmem).trans (by norm_num), ?_⟩
  exact (h.2.2 1 (by norm_num)).2 hnot

/-- C3. In rolling mode with a positive window `w` on a NaN-free series,
the detector succeeds; its threshold sequence has the length of the input,
equals `rolling_mean[i] + tolerance * rolling_std[i]` at every index, is
NaN at the first `w - 1` indices (insufficient history) and a number at
every later index; and an index is flagged exactly when its value exceeds
its threshold. -/
theorem detect_rolling_mode (qs : List ℚ) (tolerance : ℚ) (w : ℕ)
    (ht : 0 < tolerance) (hw : 0 < w) :
    exOk (detect (qs.map RVal.val) tolerance (some w)) = true ∧
    (thresholdsOf (detect (qs.map RVal.val) tolerance (some w))).length = qs.length ∧
    (∀ i, i < qs.length →
      (thresholdsOf (detect (qs.map RVal.val) tolerance (some w))).getD i .nan =
        RVal.add (rollingMean (qs.map RVal.val) w i)
          (RVal.mul (.val tolerance) (rollingStd (qs.map RVal.val) w i))) ∧
    (∀ i, i < qs.length → i + 1 < w →
      (thresholdsOf (detect (qs.map RVal.val) tolerance (some w))).getD i .nan
        = .nan) ∧
    (∀ i, i < qs.length → w ≤ i + 1 →
      ∃ q : ℚ, (thresholdsOf (detect (qs.map RVal.val) tolerance (some w))).getD
        i .nan = .val q) ∧
    (∀ i, i ∈ flaggedOf (detect (qs.map RVal.val) tolerance (some w)) ↔
      i < qs.length ∧
        RVal.lt ((thresholdsOf (detect (qs.map RVal.val) tolerance
          (some w))).getD i .nan) ((qs.map RVal.val).getD i .nan) = true) := by
  have hw0 : (some w : Option ℕ) ≠ some 0 := by
    simp [Nat.pos_iff_ne_zero.mp hw]
  rw [detect_ok (qs.map RVal.val) tolerance (some w) ht hw0]
  have hlen : ∀ i, i < qs.length → i < (qs.map RVal.val).length := by
    intro i hi; simpa using hi
  refine ⟨rfl, by simp [thresholdsOf, thresholds], fun i hi => ?_,
    fun i hi hfirst => ?_, fun i hi hlater => ?_, fun i => ?_⟩
  · rw [thresholdsOf, thresholds_some_getD (hlen i hi)]
  · rw [thresholdsOf, thresholds_some_getD (hlen i hi), rollingMean, if_pos hfirst]
    simp
  · rw [thresholdsOf, thresholds_some_getD (hlen i hi), rollingMean, rollingStd,
      if_neg (not_lt.mpr hlater), if_neg (not_lt.mpr hlater)]
    have hslice : windowSlice (qs.map RVal.val) w i =
        ((qs.drop (i + 1 - w)).take w).map RVal.val := by
      rw [windowSlice, ← List.map_drop, ← List.map_take]
    have hne : (qs.drop (i + 1 - w)).take w ≠ [] := by
      intro hc
      have hc' := congrArg List.length hc
      rw [List.length_take, List.length_drop] at hc'
      simp only [List.length_nil] at hc'
      omega
    obtain ⟨s, hs, -⟩ := rstd_map_val ((qs.drop (i + 1 - w)).take w) hne
    rw [hslice, rmean_map_val _ hne, hs]
    exact exists_add_mul_val _ _ _
  · rw [flaggedOf, mem_flaggedIdx]
    simp only [List.length_map]
    constructor
    · rintro ⟨hl, hlt⟩
      rw [thresholdsOf]
      exact ⟨hl, hlt⟩
    · rintro ⟨hl, hlt⟩
      rw [thresholdsOf] at hlt
      exact ⟨hl, hlt⟩

/-! ### Helper lemmas about the decomposer -/

theorem seriesSub_length (a b : List RVal) :
    (seriesSub a b).length = min a.length b.length := by
  simp [seriesSub]

theorem seriesSub_getD {a b : List RVal} {i : ℕ}
    (hia : i < a.length) (hib : i < b.length) :
    (seriesSub a b).getD i .nan = RVal.sub (a.getD i .nan) (b.getD i .nan) := by
  have hi : i < (seriesSub a b).length := by
    rw [seriesSub_length]; omega
  rw [List.getD_eq_getElem _ _ hi, List.getD_eq_getElem _ _ hia,
    List.getD_eq_getElem _ _ hib]
  exact List.getElem_zipWith

theorem trendSmooth_length (y : List RVal) (p : ℕ) :
    (trendSmooth y p).length = y.length := by
  simp [trendSmooth]

theorem seasonalEstimate_length (d : List RVal) (p : ℕ) :
    (seasonalEstimate d p).length = d.length := by
  simp [seasonalEstimate]

theorem stlStep_length {y s : List RVal} (p : ℕ) (hs : s.length = y.length) :
    (stlStep y p s).1.length = y.length ∧ (stlStep y p s).2.length = y.length := by
  constructor
  · show (trendSmooth (seriesSub y s) p).length = y.length
    rw [trendSmooth_length, seriesSub_length, hs, min_self]
  · show (seasonalEstimate (seriesSub y
      (trendSmooth (seriesSub y s) p)) p).length = y.length
    rw [seasonalEstimate_length, seriesSub_length, trendSmooth_length,
      seriesSub_length, hs, min_self, min_self]

theorem stlIter_length (y : List RVal) (p : ℕ) (k : ℕ) :
    (stlIter y p k).1.length = y.length ∧ (stlIter y p k).2.length = y.length := by
  induction k with
  | zero => exact stlStep_length p (List.length_replicate _ _)
  | succ k ih => exact stlStep_length p ih.2

theorem windowAround_numeric {y : List RVal} (hy : Numeric y) (h i : ℕ) :
    Numeric (windowAround y h i) := by
  intro x hx
  rw [windowAround] at hx
  rcases List.mem_map.mp hx with ⟨j, hj, rfl⟩
  have hjr : j < y.length := List.mem_range.mp (List.mem_filter.mp hj).1
  obtain ⟨q, hq⟩ := numeric_getD hy hjr
  rw [hq]
  exact RVal.val_ne_nan q

theorem windowAround_ne_nil {y : List RVal} {i : ℕ} (hi : i < y.length)
    (h : ℕ) : windowAround y h i ≠ [] := by
  intro hc
  have hmem : i ∈ (List.range y.length).filter fun j =>
      decide (i - h ≤ j) && decide (j ≤ i + h) := by
    refine List.mem_filter.mpr ⟨List.mem_range.mpr hi, ?_⟩
    simp [Nat.sub_le, Nat.le_add_right]
  rw [windowAround, List.map_eq_nil_iff] at hc
  rw [hc] at hmem
  cases hmem

theorem trendSmooth_numeric {y : List RVal} (hy : Numeric y) (p : ℕ) :
    Numeric (trendSmooth y p) := by
  intro x hx
  rw [trendSmooth] at hx
  rcases List.mem_map.mp hx with ⟨i, hi, rfl⟩
  obtain ⟨q, hq⟩ := rmean_numeric (windowAround_numeric hy _ i)
    (windowAround_ne_nil (List.mem_range.mp hi) _)
  rw [hq]
  exact RVal.val_ne_nan q

theorem mem_phaseIdx_self {n p i : ℕ} (hi : i < n) :
    i ∈ phaseIdx n p (i % p) := by
  rw [phaseIdx]
  exact List.mem_filter.mpr ⟨List.mem_range.mpr hi, by simp⟩

theorem seasonalEstimate_numeric {d : List RVal} (hd : Numeric d) (p : ℕ) :
    Numeric (seasonalEstimate d p) := by
  intro x hx
  rw [seasonalEstimate] at hx
  rcases List.mem_map.mp hx with ⟨i, hi, rfl⟩
  have hnum : Numeric ((phaseIdx d.length p (i % p)).map fun j => d.getD j .nan) := by
    intro z hz
    rcases List.mem_map.mp hz with ⟨j, hj, rfl⟩
    have hjr : j < d.length :=
      List.mem_range.mp (List.mem_filter.mp hj).1
    obtain ⟨q, hq⟩ := numeric_getD hd hjr
    rw [hq]
    exact RVal.val_ne_nan q
  have hne : (phaseIdx d.length p (i % p)).map (fun j => d.getD j .nan) ≠ [] := by
    intro hc
    rw [List.map_eq_nil_iff] at hc
    have := mem_phaseIdx_self (p := p) (List.mem_range.mp hi)
    rw [hc] at this
    cases this
  obtain ⟨q, hq⟩ := rmean_numeric hnum hne
  rw [hq]
  exact RVal.val_ne_nan q

theorem seriesSub_numeric {a b : List RVal} (ha : Numeric a) (hb : Numeric b) :
    Numeric (seriesSub a b) := by
  intro x hx
  obtain ⟨i, hi, hix⟩ := List.mem_iff_getElem.mp hx
  have hia : i < a.length := by
    rw [seriesSub_length] at hi; omega
  have hib : i < b.length := by
    rw [seriesSub_length] at hi; omega
  have hD : (seriesSub a b).getD i .nan = x := by
    rw [List.getD_eq_getElem _ _ hi, hix]
  rw [seriesSub_getD hia hib] at hD
  obtain ⟨qa, hqa⟩ := numeric_getD ha hia
  obtain ⟨qb, hqb⟩ := numeric_getD hb hib
  rw [hqa, hqb] at hD
  rw [← hD]
  exact RVal.val_ne_nan _

theorem stlStep_numeric {y s : List RVal} (p : ℕ) (hy : Numeric y)
    (hs : Numeric s) :
    Numeric (stlStep y p s).1 ∧ Numeric (stlStep y p s).2 := by
  have ht : Numeric (trendSmooth (seriesSub y s) p) :=
    trendSmooth_numeric (seriesSub_numeric hy hs) p
  exact ⟨ht, seasonalEstimate_numeric (seriesSub_numeric hy ht) p⟩

theorem stlIter_numeric {y : List RVal} (p : ℕ) (hy : Numeric y) (k : ℕ) :
    Numeric (stlIter y p k).1 ∧ Numeric (stlIter y p k).2 := by
  induction k with
  | zero =>
    refine stlStep_numeric p hy ?_
    intro x hx
    rw [List.eq_of_mem_replicate hx]
    exact RVal.val_ne_nan 0
  | succ k ih => exact stlStep_numeric p hy ih.2

/-- C3 witness: series `[1, 3, 3]` with window 2 — the first threshold
entry is NaN, the second is a number. -/
theorem detect_rolling_mode_witness :
    (thresholdsOf (detect ([(1 : ℚ), 3, 3].map RVal.val) 1 (some 2))).getD
      0 .nan = RVal.nan ∧
    (∃ q : ℚ, (thresholdsOf (detect ([(1 : ℚ), 3, 3].map RVal.val) 1
      (some 2))).getD 1 .nan = .val q) := by
  have h := detect_rolling_mode [1, 3, 3] 1 2 (by norm_num) (by norm_num)
  exact ⟨h.2.2.2.1 0 (by norm_num) (by norm_num),
    h.2.2.2.2.1 1 (by norm_num) (by norm_num)⟩

/-! ### Claims about the decomposer and the driver -/

/-- C5. For every positive period `p`, the decomposer succeeds on a series
of length exactly `2 * p` and fails with `InsufficientDataError` on a
series of length `2 * p - 1`; the error carries no partial result. -/
theorem decompose_length_boundary (p : ℕ) (hp : 0 < p) (y2 y1 : List RVal)
    (h2 : y2.length = 2 * p) (h1 : y1.length = 2 * p - 1) :
    exOk (decompose y2 p) = true ∧
    decompose y1 p = .error .insufficientData := by
  have hne : p ≠ 0 := Nat.pos_iff_ne_zero.mp hp
  constructor
  · rw [decompose, if_neg hne, if_neg (by omega)]
    rfl
  · rw [decompose, if_neg hne, if_pos (by omega)]

/-- C5 witness: with period 1, a two-sample series is accepted and a
one-sample series is rejected with `InsufficientDataError`. -/
theorem decompose_length_boundary_witness :
    exOk (decompose [RVal.val 0, RVal.val 0] 1) = true ∧
    decompose [RVal.val 0] 1 = .error .insufficientData :=
  decompose_length_boundary 1 (by norm_num) [RVal.val 0, RVal.val 0]
    [RVal.val 0] (by norm_num) (by norm_num)

/-- C1. For every NaN-free series accepted by the decomposer (positive
period, length at least `2 * period`), the decomposition returns trend,
seasonal and remainder of the input's length with
`trend[i] + seasonal[i] + remainder[i] = series[i]` exactly (hence within
any tolerance) at every index. -/
theorem decompose_additive (y : List RVal) (p : ℕ) (hp : 0 < p)
    (hlen : 2 * p ≤ y.length) (hy : Numeric y) :
    exOk (decompose y p) = true ∧
    ∀ d, decompose y p = .ok d →
      d.trend.length = y.length ∧ d.seasonal.length = y.length ∧
      d.remainder.length = y.length ∧
      ∀ i, i < y.length →
        RVal.add (RVal.add (d.trend.getD i .nan) (d.seasonal.getD i .nan))
          (d.remainder.getD i .nan) = y.getD i .nan := by
  have hne : p ≠ 0 := Nat.pos_iff_ne_zero.mp hp
  have hnl : ¬ y.length < 2 * p := not_lt.mpr hlen
  rw [decompose, if_neg hne, if_neg hnl]
  refine ⟨rfl, fun d hd => ?_⟩
  injection hd with hd
  subst hd
  obtain ⟨hTl, hSl⟩ := stlIter_length y p stlIterations
  obtain ⟨hTn, hSn⟩ := stlIter_numeric p hy stlIterations
  refine ⟨hTl, hSl, ?_, fun i hi => ?_⟩
  · show (seriesSub (seriesSub y (stlIter y p stlIterations).1)
      (stlIter y p stlIterations).2).length = y.length
    rw [seriesSub_length, seriesSub_length, hTl, hSl, min_self, min_self]
  · have hiT : i < (stlIter y p stlIterations).1.length := by rw [hTl]; exact hi
    have hiS : i < (stlIter y p stlIterations).2.length := by rw [hSl]; exact hi
    obtain ⟨c, hc⟩ := numeric_getD hy hi
    obtain ⟨a, ha⟩ := numeric_getD hTn hiT
    obtain ⟨b, hb⟩ := numeric_getD hSn hiS
    have h1 : (seriesSub y (stlIter y p stlIterations).1).getD i .nan =
        RVal.sub (y.getD i .nan) ((stlIter y p stlIterations).1.getD i .nan) :=
      seriesSub_getD hi hiT
    have h2 : (seriesSub (seriesSub y (stlIter y p stlIterations).1)
        (stlIter y p stlIterations).2).getD i .nan =
        RVal.sub ((seriesSub y (stlIter y p stlIterations).1).getD i .nan)
          ((stlIter y p stlIterations).2.getD i .nan) :=
      seriesSub_getD (by rw [seriesSub_length, hTl, min_self]; exact hi) hiS
    show RVal.add (RVal.add ((stlIter y p stlIterations).1.getD i .nan)
      ((stlIter y p stlIterations).2.getD i .nan))
      ((seriesSub (seriesSub y (stlIter y p stlIterations).1)
        (stlIter y p stlIterations).2).getD i .nan) = y.getD i .nan
    rw [h2, h1, hc, ha, hb]
    simp only [RVal.sub_val, RVal.add_val]
    have : a + b + (c - a - b) = c := by ring
    rw [this]

/-- C1 witness: the decomposition of the two-sample series `[1, 2]` with
period 1 is accepted and additive at every index. -/
theorem decompose_additive_witness :
    exOk (decompose ([(1 : ℚ), 2].map RVal.val) 1) = true ∧
    ∀ d, decompose ([(1 : ℚ), 2].map RVal.val) 1 = .ok d →
      d.trend.length = ([(1 : ℚ), 2].map RVal.val).length ∧
      d.seasonal.length = ([(1 : ℚ), 2].map RVal.val).length ∧
      d.remainder.length = ([(1 : ℚ), 2].map RVal.val).length ∧
      ∀ i, i < ([(1 : ℚ), 2].map RVal.val).length →
        RVal.add (RVal.add (d.trend.getD i .nan) (d.seasonal.getD i .nan))
          (d.remainder.getD i .nan) = ([(1 : ℚ), 2].map RVal.val).getD i .nan :=
  decompose_additive ([(1 : ℚ), 2].map RVal.val) 1 (by norm_num) (by norm_num)
    (numeric_map_val _)

/-- C8. A NaN in the input is not an error: with a valid period, window and
tolerance, the decomposer and the detector both succeed on a series holding
a NaN at index `j`, return outputs of the input's length, and the NaN
reaches the remainder and the anomaly array at index `j` instead of being
dropped. -/
theorem nan_propagates (y : List RVal) (p : ℕ) (hp : 0 < p)
    (hlen : 2 * p ≤ y.length) (j : ℕ) (hj : j < y.length)
    (hnan : y.getD j .nan = .nan) (tolerance : ℚ) (ht : 0 < tolerance)
    (window : Option ℕ) (hw : window ≠ some 0) :
    exOk (decompose y p) = true ∧
    (remainderOf (decompose y p)).length = y.length ∧
    (remainderOf (decompose y p)).getD j .nan = .nan ∧
    exOk (detect y tolerance window) = true ∧
    (anomsOf (detect y tolerance window)).length = y.length ∧
    (anomsOf (detect y tolerance window)).getD j .nan = .nan := by
  have hne : p ≠ 0 := Nat.pos_iff_ne_zero.mp hp
  have hnl : ¬ y.length < 2 * p := not_lt.mpr hlen
  obtain ⟨hTl, hSl⟩ := stlIter_length y p stlIterations
  have hjT : j < (stlIter y p stlIterations).1.length := by rw [hTl]; exact hj
  have hjS : j < (stlIter y p stlIterations).2.length := by rw [hSl]; exact hj
  rw [decompose, if_neg hne, if_neg hnl, detect_ok y tolerance window ht hw]
  refine ⟨rfl, ?_, ?_, rfl, anomsArray_length _ _, ?_⟩
  · show (seriesSub (seriesSub y (stlIter y p stlIterations).1)
      (stlIter y p stlIterations).2).length = y.length
    rw [seriesSub_length, seriesSub_length, hTl, hSl, min_self, min_self]
  · show (seriesSub (seriesSub y (stlIter y p stlIterations).1)
      (stlIter y p stlIterations).2).getD j .nan = .nan
    rw [seriesSub_getD (by rw [seriesSub_length, hTl, min_self]; exact hj) hjS,
      seriesSub_getD hj hjT, hnan]
    simp
  · show (anomsArray y (thresholds y tolerance window)).getD j .nan = .nan
    rw [anomsArray_getD hj, hnan]
    simp

/-- C8 witness: the series `[NaN, 1]` passes both stages with valid
parameters and the NaN at index 0 reaches both outputs. -/
theorem nan_propagates_witness :
    exOk (decompose [RVal.nan, RVal.val 1] 1) = true ∧
    (remainderOf (decompose [RVal.nan, RVal.val 1] 1)).length = 2 ∧
    (remainderOf (decompose [RVal.nan, RVal.val 1] 1)).getD 0 .nan = .nan ∧
    exOk (detect [RVal.nan, RVal.val 1] 1 none) = true ∧
    (anomsOf (detect [RVal.nan, RVal.val 1] 1 none)).length = 2 ∧
    (anomsOf (detect [RVal.nan, RVal.val 1] 1 none)).getD 0 .nan = .nan :=
  nan_propagates [RVal.nan, RVal.val 1] 1 (by norm_num) (by norm_num) 0
    (by norm_num) rfl 1 (by norm_num) none (by simp)

/-- C6. The driver with a period decomposes first, runs the detector with
the same tolerance and window on the remainder, and returns the report
together with the remainder, propagating a decomposition error unchanged;
without a period it runs the detector directly on the original series and
returns the original series in place of the remainder, again propagating
errors unchanged. -/
theorem driver_composition (y : List RVal) (tolerance : ℚ)
    (window : Option ℕ) (p : ℕ) :
    (∀ d r, decompose y p = .ok d →
      detect d.remainder tolerance window = .ok r →
      detect_anomalies_stl y tolerance window (some p) = .ok (r, d.remainder)) ∧
    (∀ e, decompose y p = .error e →
      detect_anomalies_stl y tolerance window (some p) = .error e) ∧
    (∀ r, detect y tolerance window = .ok r →
      detect_anomalies_stl y tolerance window none = .ok (r, y)) ∧
    (∀ e, detect y tolerance window = .error e →
      detect_anomalies_stl y tolerance window none = .error e) := by
  refine ⟨fun d r hd hr => ?_, fun e he => ?_, fun r hr => ?_, fun e he => ?_⟩
  · simp only [detect_anomalies_stl, hd, hr]
  · simp only [detect_anomalies_stl, he]
  · simp only [detect_anomalies_stl, hr]
  · simp only [detect_anomalies_stl, he]

/-- C6 witness: on the all-zero two-sample series with period 1, the driver
returns the detector's report on the remainder together with the
remainder. -/
theorem driver_composition_witness :
    detect_anomalies_stl [RVal.val 0, RVal.val 0] 1 none (some 1) =
      .ok (⟨[], [RVal.nan, RVal.nan], [RVal.val 0, RVal.val 0]⟩,
        [RVal.val 0, RVal.val 0]) := by
  have hd : decompose [RVal.val 0, RVal.val 0] 1 =
      .ok ⟨[RVal.val 0, RVal.val 0], [RVal.val 0, RVal.val 0],
        [RVal.val 0, RVal.val 0]⟩ := by
    norm_num [decompose, stlIterations, stlIter, stlStep, trendSmooth,
      seasonalEstimate, windowAround, phaseIdx, seriesSub, rmean, rsum,
      RVal.div, RVal.add, RVal.sub, List.range_succ, List.filter, List.replicate]
  have hr : detect [RVal.val 0, RVal.val 0] 1 none =
      .ok ⟨[], [RVal.nan, RVal.nan], [RVal.val 0, RVal.val 0]⟩ := by
    rw [detect_ok _ 1 none (by norm_num) (by simp)]
    norm_num [flaggedIdx, anomsArray, thresholds, globalThreshold, rstd,
      rvariance, rmean, rsum, RVal.div, RVal.add, RVal.sub, RVal.mul, RVal.lt,
      rsqrt, ratSqrt_zero, List.range_succ, List.filter, List.replicate]
  exact (driver_composition [RVal.val 0, RVal.val 0] 1 none 1).1
    ⟨[RVal.val 0, RVal.val 0], [RVal.val 0, RVal.val 0], [RVal.val 0, RVal.val 0]⟩
    ⟨[], [RVal.nan, RVal.nan], [RVal.val 0, RVal.val 0]⟩ hd hr

end ADPM
